import Mathlib

/-!
Verification of the signal-generation engine of the stock_tracker repository
(`src/stocks/utils.py`, class `StockAnalyzer`).

The embedding models a price series as a `List ℚ` of close prices ordered by
date (the date itself is carried as the index of the day).  Python floats are
modelled as rationals.  Python code that can raise an exception (in this
engine: `ZeroDivisionError` from a zero denominator) is modelled with
`Option`: a `none` result corresponds to the Python call raising.
-/

namespace StockTracker

/-- The four signal kinds emitted by `StockAnalyzer.generate_signals`
(the Python code uses the strings `'buy'`, `'weak_buy'`, `'hold'`, `'sell'`). -/
inductive Signal where
  | buy
  | weak_buy
  | hold
  | sell
deriving DecidableEq

/-- One per-day record of the list returned by `generate_signals`
(`src/stocks/utils.py`, lines 162-169).  The `date` field of the Python dict is
modelled by the day's index in the series. -/
structure SignalRecord where
  date : ℕ
  signal : Signal
  price_drop : Option ℚ
  expected_profit : Option ℚ
  confidence : ℕ
  close_price : ℚ
deriving DecidableEq

/-- `(close[i] - close[i-1]) / close[i-1] * 100`, the day-over-day change
percent used at lines 107-109 and (shifted by 5) at lines 150-152 of
`src/stocks/utils.py`.  Out-of-range indices read the `getD` default; every
use in the engine is in range. -/
def dailyChange (prices : List ℚ) (i : ℕ) : ℚ :=
  (prices.getD i 0 - prices.getD (i - 1) 0) / prices.getD (i - 1) 0 * 100

/-- `(close[i+5] - close[i]) / close[i] * 100`, the 5-day forward profit
percent of lines 136-137. -/
def profit5 (prices : List ℚ) (i : ℕ) : ℚ :=
  (prices.getD (i + 5) 0 - prices.getD i 0) / prices.getD i 0 * 100

/-- Mean of `close[i-5 .. i-1]`, the 5-day moving average of line 113
(`np.mean` over exactly five values when `i ≥ 5`). -/
def maMean (prices : List ℚ) (i : ℕ) : ℚ :=
  ((prices.take i).drop (i - 5)).sum / 5

/-- `above_ma` of lines 112-116: true when `i ≥ 5` and the current close is
strictly above the 5-day moving average, false otherwise. -/
def aboveMa (prices : List ℚ) (i : ℕ) : Bool :=
  if 5 ≤ i then decide (maMean prices i < prices.getD i 0) else false

/-- `StockAnalyzer.find_support_level` (lines 173-186): the minimum close
price among indices `[max 0 (i - lookback), i)`, or the close at `i` itself
when that window is empty. -/
def find_support_level (prices : List ℚ) (current_index : ℕ) (lookback : ℕ) : ℚ :=
  match ((prices.take current_index).drop (current_index - lookback)).min? with
  | some m => m
  | none => prices.getD current_index 0

/-- `near_support` of line 125: `|close[i] - support| / support < 0.02`.
In ℚ the division is total; the engine only consults this value after
establishing that the support level is nonzero (a zero support level makes
the Python line raise, which `buyEval` models separately). -/
def nearSupport (prices : List ℚ) (i : ℕ) : Bool :=
  decide (|prices.getD i 0 - find_support_level prices i 20| /
    find_support_level prices i 20 < 2 / 100)

/-- The confidence score of lines 120-133: base 50, plus 20 when above the
moving average, plus 15 for the placeholder `volume_increase = True`, plus 15
when near support. -/
def buyConfidence (prices : List ℚ) (i : ℕ) : ℕ :=
  let volume_increase := true
  50 + (if aboveMa prices i then 20 else 0) +
    (if volume_increase then 15 else 0) +
    (if nearSupport prices i then 15 else 0)

/-- The BUY half of one iteration of the `generate_signals` loop
(lines 100-144).  A `none` result models the Python iteration raising
`ZeroDivisionError` (zero `prev_close` at line 109, zero support level at
line 125, zero current close at line 137). -/
def buyEval (prices : List ℚ) (i : ℕ) : Option SignalRecord :=
  if 1 ≤ i ∧ i + 5 < prices.length then
    if prices.getD (i - 1) 0 = 0 then none
    else if dailyChange prices i ≤ -3 then
      if find_support_level prices i 20 = 0 then none
      else if prices.getD i 0 = 0 then none
      else if 0 < profit5 prices i then
        some ⟨i, Signal.buy, some |dailyChange prices i|, some (profit5 prices i),
          buyConfidence prices i, prices.getD i 0⟩
      else
        some ⟨i, if buyConfidence prices i < 60 then Signal.hold else Signal.weak_buy,
          none, none, buyConfidence prices i, prices.getD i 0⟩
    else some ⟨i, Signal.hold, none, none, 0, prices.getD i 0⟩
  else some ⟨i, Signal.hold, none, none, 0, prices.getD i 0⟩

/-- The SELL half of one iteration of the loop (lines 146-160), applied to the
record the BUY half produced.  It overwrites `signal` and `expected_profit`
only; `price_drop` and `confidence` are left untouched.  A `none` result
models the iteration raising (zero denominator at line 152 or line 157). -/
def sellEval (prices : List ℚ) (i : ℕ) (r : SignalRecord) : Option SignalRecord :=
  if 5 ≤ i ∧ 1 ≤ i - 5 then
    if prices.getD (i - 6) 0 = 0 then none
    else if dailyChange prices (i - 5) ≤ -3 then
      if prices.getD (i - 5) 0 = 0 then none
      else some { r with
        signal := Signal.sell
        expected_profit := some ((prices.getD i 0 - prices.getD (i - 5) 0) /
          prices.getD (i - 5) 0 * 100) }
    else some r
  else some r

/-- One full iteration of the `generate_signals` loop at index `i`. -/
def genSignalAt (prices : List ℚ) (i : ℕ) : Option SignalRecord :=
  (buyEval prices i).bind (sellEval prices i)

/-- Effectful map over a list in the `Option` monad: the Python `for` loop
appending one record per day, aborting (raising) as soon as one iteration
raises. -/
def optionTraverse {α β : Type} (f : α → Option β) : List α → Option (List β)
  | [] => some []
  | a :: as =>
    match f a, optionTraverse f as with
    | some b, some bs => some (b :: bs)
    | _, _ => none

/-- `StockAnalyzer.generate_signals` (lines 74-171): one record per day,
`none` when the Python call raises. -/
def generate_signals (prices : List ℚ) : Option (List SignalRecord) :=
  optionTraverse (genSignalAt prices) (List.range prices.length)

/-- Python `round(q, 2)` on a (decimal-valued) number: round half to even at
two decimal places. -/
def roundHalfEven (q : ℚ) : ℤ :=
  if q - ⌊q⌋ < 1 / 2 then ⌊q⌋
  else if 1 / 2 < q - ⌊q⌋ then ⌊q⌋ + 1
  else if ⌊q⌋ % 2 = 0 then ⌊q⌋ else ⌊q⌋ + 1

/-- Two-decimal rounding used by `get_summary_stats` (lines 214-218). -/
def pyRound2 (q : ℚ) : ℚ :=
  (roundHalfEven (q * 100) : ℚ) / 100

/-- Summary dictionary returned by `StockAnalyzer.get_summary_stats`
(lines 209-219).  The two averages are `Option ℚ`: `none` models the float
`nan` that `np.mean` of an empty list produces (buy records present but all
the averaged values falsy). -/
structure SummaryStats where
  total_days : ℕ
  buy_signals : ℕ
  sell_signals : ℕ
  hold_signals : ℕ
  success_rate : ℚ
  avg_price_drop : Option ℚ
  avg_profit : Option ℚ
  max_price_drop : ℚ
  min_price_drop : ℚ
deriving DecidableEq

/-- Python truthiness of the optional numeric fields as used in the
comprehension filters `if s['price_drop']` (lines 206, 217-218): `None` and
`0` are falsy. -/
def truthyQ : Option ℚ → Bool
  | some q => decide (q ≠ 0)
  | none => false

/-- The buy-record sublist (line 198). -/
def buysOf (signals : List SignalRecord) : List SignalRecord :=
  signals.filter (fun s => decide (s.signal = Signal.buy))

/-- The sell-record sublist (line 199). -/
def sellsOf (signals : List SignalRecord) : List SignalRecord :=
  signals.filter (fun s => decide (s.signal = Signal.sell))

/-- The hold-record sublist (line 200). -/
def holdsOf (signals : List SignalRecord) : List SignalRecord :=
  signals.filter (fun s => decide (s.signal = Signal.hold))

/-- Truthy `price_drop` values of the buy records (line 206 / 217 / 218). -/
def dropsOf (signals : List SignalRecord) : List ℚ :=
  ((buysOf signals).filter (fun s => truthyQ s.price_drop)).map
    (fun s => s.price_drop.getD 0)

/-- Truthy `expected_profit` values of the buy records (line 207). -/
def profsOf (signals : List SignalRecord) : List ℚ :=
  ((buysOf signals).filter (fun s => truthyQ s.expected_profit)).map
    (fun s => s.expected_profit.getD 0)

/-- `success_rate` before rounding (line 204): `successful / total * 100`
when there is at least one buy record, else `0`. -/
def successRateOf (successful total : ℕ) : ℚ :=
  if 0 < total then (successful : ℚ) / (total : ℚ) * 100 else 0

/-- The summary dictionary built at lines 202-219, given the extracted
`expected_profit` values of the buy records. -/
def mkSummary (signals : List SignalRecord) (profits : List ℚ) : SummaryStats where
  total_days := signals.length
  buy_signals := (buysOf signals).length
  sell_signals := (sellsOf signals).length
  hold_signals := (holdsOf signals).length
  success_rate := pyRound2 (successRateOf
    ((profits.filter (fun p => decide (0 < p))).length) ((buysOf signals).length))
  avg_price_drop :=
    if (buysOf signals).isEmpty then some 0
    else if (dropsOf signals).isEmpty then none
    else some (pyRound2 ((dropsOf signals).sum / ((dropsOf signals).length : ℚ)))
  avg_profit :=
    if (buysOf signals).isEmpty then some 0
    else if (profsOf signals).isEmpty then none
    else some (pyRound2 ((profsOf signals).sum / ((profsOf signals).length : ℚ)))
  max_price_drop := pyRound2 (((dropsOf signals).max?).getD 0)
  min_price_drop := pyRound2 (((dropsOf signals).min?).getD 0)

/-- `StockAnalyzer.get_summary_stats` (lines 188-219).  The comparison
`s.get('expected_profit', 0) > 0` at line 203 raises `TypeError` in Python 3
when a buy record carries `None`; this is modelled by extracting the buy
records' `expected_profit` values in the `Option` monad. -/
def get_summary_stats (signals : List SignalRecord) : Option SummaryStats :=
  (optionTraverse (fun s => s.expected_profit) (buysOf signals)).map
    (mkSummary signals)

/-! ### Helper lemmas about `optionTraverse` -/

theorem optionTraverse_eq_map {α β : Type} (f : α → Option β) (g : α → β) (l : List α)
    (h : ∀ a ∈ l, f a = some (g a)) : optionTraverse f l = some (l.map g) := by
  induction l with
  | nil => rfl
  | cons a as ih =>
    have ha := h a (List.mem_cons_self a as)
    have hr := ih (fun x hx => h x (List.mem_cons_of_mem a hx))
    simp [optionTraverse, ha, hr]

theorem optionTraverse_isSome {α β : Type} (f : α → Option β) (l : List α)
    (h : ∀ a ∈ l, ∃ b, f a = some b) : ∃ ys, optionTraverse f l = some ys := by
  induction l with
  | nil => exact ⟨[], rfl⟩
  | cons a as ih =>
    obtain ⟨b, hb⟩ := h a (List.mem_cons_self a as)
    obtain ⟨ys, hys⟩ := ih (fun x hx => h x (List.mem_cons_of_mem a hx))
    exact ⟨b :: ys, by simp [optionTraverse, hb, hys]⟩

theorem optionTraverse_mem {α β : Type} (f : α → Option β) (l : List α) (ys : List β)
    (h : optionTraverse f l = some ys) : ∀ y ∈ ys, ∃ a, a ∈ l ∧ f a = some y := by
  induction l generalizing ys with
  | nil =>
    simp only [optionTraverse] at h
    injection h with h
    subst h
    intro y hy
    exact absurd hy (List.not_mem_nil y)
  | cons a as ih =>
    simp only [optionTraverse] at h
    cases hfa : f a with
    | none => rw [hfa] at h; exact absurd h (by simp)
    | some b =>
      rw [hfa] at h
      cases hta : optionTraverse f as with
      | none => rw [hta] at h; exact absurd h (by simp)
      | some ts =>
        rw [hta] at h
        simp only [Option.some.injEq] at h
        subst h
        intro y hy
        rcases List.mem_cons.mp hy with hy | hy
        · exact ⟨a, List.mem_cons_self a as, hy ▸ hfa⟩
        · obtain ⟨x, hx, hfx⟩ := ih ts hta y hy
          exact ⟨x, List.mem_cons_of_mem a hx, hfx⟩

theorem optionTraverse_length {α β : Type} (f : α → Option β) (l : List α) (ys : List β)
    (h : optionTraverse f l = some ys) : ys.length = l.length := by
  induction l generalizing ys with
  | nil =>
    simp only [optionTraverse] at h
    injection h with h
    subst h
    rfl
  | cons a as ih =>
    simp only [optionTraverse] at h
    cases hfa : f a with
    | none => rw [hfa] at h; exact absurd h (by simp)
    | some b =>
      rw [hfa] at h
      cases hta : optionTraverse f as with
      | none => rw [hta] at h; exact absurd h (by simp)
      | some ts =>
        rw [hta] at h
        simp only [Option.some.injEq] at h
        subst h
        simp [ih ts hta]

theorem optionTraverse_eq_map_getD {α β : Type} (f : α → Option β) (d : β) (l : List α)
    (ys : List β) (h : optionTraverse f l = some ys) :
    ys = l.map (fun a => (f a).getD d) := by
  induction l generalizing ys with
  | nil =>
    simp only [optionTraverse] at h
    injection h with h
    subst h
    rfl
  | cons a as ih =>
    simp only [optionTraverse] at h
    cases hfa : f a with
    | none => rw [hfa] at h; exact absurd h (by simp)
    | some b =>
      rw [hfa] at h
      cases hta : optionTraverse f as with
      | none => rw [hta] at h; exact absurd h (by simp)
      | some ts =>
        rw [hta] at h
        simp only [Option.some.injEq] at h
        subst h
        simp [List.map_cons, hfa, ih ts hta]

/-! ### Helper lemmas about list minima -/

theorem foldl_min_le_init (xs : List ℚ) (x : ℚ) : xs.foldl min x ≤ x := by
  induction xs generalizing x with
  | nil => exact le_refl x
  | cons y ys ih =>
    simp only [List.foldl_cons]
    exact (ih (min x y)).trans (min_le_left x y)

theorem foldl_min_le_mem (xs : List ℚ) (x : ℚ) : ∀ b ∈ xs, xs.foldl min x ≤ b := by
  induction xs generalizing x with
  | nil => intro b hb; exact absurd hb (List.not_mem_nil b)
  | cons y ys ih =>
    intro b hb
    simp only [List.foldl_cons]
    rcases List.mem_cons.mp hb with hb | hb
    · exact hb ▸ (foldl_min_le_init ys (min x y)).trans (min_le_right x y)
    · exact ih (min x y) b hb

theorem foldl_min_mem (xs : List ℚ) (x : ℚ) :
    xs.foldl min x = x ∨ xs.foldl min x ∈ xs := by
  induction xs generalizing x with
  | nil => exact Or.inl rfl
  | cons y ys ih =>
    simp only [List.foldl_cons]
    rcases ih (min x y) with h | h
    · rcases min_choice x y with hc | hc
      · exact Or.inl (h.trans hc)
      · exact Or.inr (List.mem_cons.mpr (Or.inl (h.trans hc)))
    · exact Or.inr (List.mem_cons_of_mem y h)

theorem min?_spec (l : List ℚ) (m : ℚ) (h : l.min? = some m) :
    m ∈ l ∧ ∀ b ∈ l, m ≤ b := by
  cases l with
  | nil => exact absurd h (by simp)
  | cons x xs =>
    rw [List.min?_cons'] at h
    injection h with h
    subst h
    constructor
    · rcases foldl_min_mem xs x with h | h
      · rw [h]; exact List.mem_cons_self x xs
      · exact List.mem_cons_of_mem x h
    · intro b hb
      rcases List.mem_cons.mp hb with hb | hb
      · exact hb ▸ foldl_min_le_init xs x
      · exact foldl_min_le_mem xs x b hb

/-! ### Positivity helpers -/

theorem getD_pos (prices : List ℚ) (hpos : ∀ p ∈ prices, 0 < p) (j : ℕ)
    (hj : j < prices.length) : 0 < prices.getD j 0 := by
  rw [List.getD_eq_getElem?_getD, List.getElem?_eq_getElem hj]
  exact hpos _ (List.getElem_mem hj)

theorem find_support_level_pos (prices : List ℚ) (hpos : ∀ p ∈ prices, 0 < p)
    (i L : ℕ) (hi : i < prices.length) : 0 < find_support_level prices i L := by
  unfold find_support_level
  cases hm : ((prices.take i).drop (i - L)).min? with
  | none => exact getD_pos prices hpos i hi
  | some m =>
    have hmem := (min?_spec _ _ hm).1
    have : m ∈ prices := List.take_subset i prices (List.drop_subset (i - L) _ hmem)
    exact hpos m this

/-! ### Inversion lemmas for the per-day evaluation -/

/-- A record for a day that keeps the loop's initial defaults
(lines 100-103 of `src/stocks/utils.py`). -/
def holdRecord (prices : List ℚ) (i : ℕ) : SignalRecord :=
  ⟨i, Signal.hold, none, none, 0, prices.getD i 0⟩

theorem buyEval_spec (prices : List ℚ) (i : ℕ) (b : SignalRecord)
    (h : buyEval prices i = some b) :
    (¬(1 ≤ i ∧ i + 5 < prices.length) ∧ b = holdRecord prices i) ∨
    ((1 ≤ i ∧ i + 5 < prices.length) ∧ ¬dailyChange prices i ≤ -3 ∧
      b = holdRecord prices i) ∨
    ((1 ≤ i ∧ i + 5 < prices.length) ∧ dailyChange prices i ≤ -3 ∧
      0 < profit5 prices i ∧
      b = ⟨i, Signal.buy, some |dailyChange prices i|, some (profit5 prices i),
        buyConfidence prices i, prices.getD i 0⟩) ∨
    ((1 ≤ i ∧ i + 5 < prices.length) ∧ dailyChange prices i ≤ -3 ∧
      ¬0 < profit5 prices i ∧
      b = ⟨i, if buyConfidence prices i < 60 then Signal.hold else Signal.weak_buy,
        none, none, buyConfidence prices i, prices.getD i 0⟩) := by
  unfold buyEval at h
  by_cases hg : 1 ≤ i ∧ i + 5 < prices.length
  · rw [if_pos hg] at h
    by_cases hz : prices.getD (i - 1) 0 = 0
    · rw [if_pos hz] at h
      exact Option.noConfusion h
    · rw [if_neg hz] at h
      by_cases hd : dailyChange prices i ≤ -3
      · rw [if_pos hd] at h
        by_cases hs : find_support_level prices i 20 = 0
        · rw [if_pos hs] at h
          exact Option.noConfusion h
        · rw [if_neg hs] at h
          by_cases hc : prices.getD i 0 = 0
          · rw [if_pos hc] at h
            exact Option.noConfusion h
          · rw [if_neg hc] at h
            by_cases hp : 0 < profit5 prices i
            · rw [if_pos hp] at h
              exact Or.inr (Or.inr (Or.inl ⟨hg, hd, hp, (Option.some.inj h).symm⟩))
            · rw [if_neg hp] at h
              exact Or.inr (Or.inr (Or.inr ⟨hg, hd, hp, (Option.some.inj h).symm⟩))
      · rw [if_neg hd] at h
        exact Or.inr (Or.inl ⟨hg, hd, (Option.some.inj h).symm⟩)
  · rw [if_neg hg] at h
    exact Or.inl ⟨hg, (Option.some.inj h).symm⟩

/-- The condition under which the SELL half of an iteration overwrites the
record (lines 147-154): a qualifying day-over-day drop five days back. -/
def sellTrigger (prices : List ℚ) (i : ℕ) : Prop :=
  (5 ≤ i ∧ 1 ≤ i - 5) ∧ dailyChange prices (i - 5) ≤ -3

instance (prices : List ℚ) (i : ℕ) : Decidable (sellTrigger prices i) := by
  unfold sellTrigger
  infer_instance

theorem sellEval_spec (prices : List ℚ) (i : ℕ) (r s : SignalRecord)
    (h : sellEval prices i r = some s) :
    (sellTrigger prices i ∧
      s = { r with
        signal := Signal.sell
        expected_profit := some ((prices.getD i 0 - prices.getD (i - 5) 0) /
          prices.getD (i - 5) 0 * 100) }) ∨
    (¬sellTrigger prices i ∧ s = r) := by
  unfold sellEval at h
  by_cases hg : 5 ≤ i ∧ 1 ≤ i - 5
  · rw [if_pos hg] at h
    by_cases hz : prices.getD (i - 6) 0 = 0
    · rw [if_pos hz] at h
      exact Option.noConfusion h
    · rw [if_neg hz] at h
      by_cases hd : dailyChange prices (i - 5) ≤ -3
      · rw [if_pos hd] at h
        by_cases hc : prices.getD (i - 5) 0 = 0
        · rw [if_pos hc] at h
          exact Option.noConfusion h
        · rw [if_neg hc] at h
          exact Or.inl ⟨⟨hg, hd⟩, (Option.some.inj h).symm⟩
      · rw [if_neg hd] at h
        exact Or.inr ⟨fun ht => hd ht.2, (Option.some.inj h).symm⟩
  · rw [if_neg hg] at h
    exact Or.inr ⟨fun ht => hg ht.1, (Option.some.inj h).symm⟩

theorem genSignalAt_inv (prices : List ℚ) (i : ℕ) (r : SignalRecord)
    (h : genSignalAt prices i = some r) :
    ∃ b, buyEval prices i = some b ∧ sellEval prices i b = some r := by
  unfold genSignalAt at h
  cases hb : buyEval prices i with
  | none => rw [hb] at h; exact Option.noConfusion h
  | some b => rw [hb] at h; exact ⟨b, rfl, h⟩

theorem generate_signals_mem (prices : List ℚ) (sigs : List SignalRecord)
    (h : generate_signals prices = some sigs) (r : SignalRecord) (hr : r ∈ sigs) :
    ∃ i, i < prices.length ∧ genSignalAt prices i = some r := by
  obtain ⟨a, ha, hfa⟩ := optionTraverse_mem _ _ _ h r hr
  exact ⟨a, List.mem_range.mp ha, hfa⟩

/-! ### Confidence arithmetic -/

theorem buyConfidence_cases (prices : List ℚ) (i : ℕ) :
    buyConfidence prices i = 65 ∨ buyConfidence prices i = 80 ∨
    buyConfidence prices i = 85 ∨ buyConfidence prices i = 100 := by
  unfold buyConfidence
  cases ha : aboveMa prices i <;> cases hn : nearSupport prices i <;> simp

theorem buyConfidence_ge (prices : List ℚ) (i : ℕ) : 65 ≤ buyConfidence prices i := by
  rcases buyConfidence_cases prices i with h | h | h | h <;> omega

/-- On a successful iteration, the final record's `confidence` is the one the
BUY half computed (the SELL half never touches `confidence`). -/
theorem genSignalAt_confidence (prices : List ℚ) (i : ℕ) (b r : SignalRecord)
    (hb : buyEval prices i = some b) (hs : sellEval prices i b = some r) :
    r.confidence = b.confidence ∧ r.price_drop = b.price_drop := by
  rcases sellEval_spec prices i b r hs with ⟨_, rfl⟩ | ⟨_, rfl⟩ <;> exact ⟨rfl, rfl⟩

/-! ### Rounding arithmetic -/

theorem roundHalfEven_nonneg (q : ℚ) (h : 0 ≤ q) : 0 ≤ roundHalfEven q := by
  have hfl : (0 : ℤ) ≤ ⌊q⌋ := Int.floor_nonneg.mpr h
  unfold roundHalfEven
  split_ifs <;> omega

theorem roundHalfEven_le (q : ℚ) (n : ℤ) (h : q ≤ (n : ℚ)) : roundHalfEven q ≤ n := by
  have h1 : ⌊q⌋ ≤ n := by
    have h2 := Int.floor_le_floor h
    rwa [Int.floor_intCast] at h2
  have key : (1 : ℚ) / 2 ≤ q - ⌊q⌋ → ⌊q⌋ + 1 ≤ n := by
    intro h2
    rcases eq_or_lt_of_le h1 with he | hl
    · exfalso
      have hq : (⌊q⌋ : ℚ) = (n : ℚ) := by exact_mod_cast he
      rw [hq] at h2
      linarith
    · omega
  unfold roundHalfEven
  split_ifs with hlt hgt hev
  · exact h1
  · exact key (le_of_lt hgt)
  · exact h1
  · exact key (le_of_not_lt hlt)

theorem pyRound2_bounds (q : ℚ) (h0 : 0 ≤ q) (h100 : q ≤ 100) :
    0 ≤ pyRound2 q ∧ pyRound2 q ≤ 100 := by
  unfold pyRound2
  constructor
  · have h1 := roundHalfEven_nonneg (q * 100) (by positivity)
    have h2 : (0 : ℚ) ≤ (roundHalfEven (q * 100) : ℚ) := by exact_mod_cast h1
    positivity
  · have h1 : roundHalfEven (q * 100) ≤ 10000 := by
      refine roundHalfEven_le (q * 100) 10000 ?_
      push_cast
      linarith
    rw [div_le_iff (by norm_num : (0 : ℚ) < 100)]
    have h2 : ((roundHalfEven (q * 100) : ℤ) : ℚ) ≤ 10000 := by exact_mod_cast h1
    linarith

theorem successRateOf_bounds (s t : ℕ) (h : s ≤ t) :
    0 ≤ successRateOf s t ∧ successRateOf s t ≤ 100 := by
  unfold successRateOf
  split_ifs with ht
  · have h1 : (s : ℚ) ≤ (t : ℚ) := by exact_mod_cast h
    have h2 : (0 : ℚ) < (t : ℚ) := by exact_mod_cast ht
    constructor
    · positivity
    · rw [div_mul_eq_mul_div, div_le_iff h2]
      nlinarith
  · norm_num

/-! ### Counting helpers for the summary aggregator -/

theorem length_filter_map {α β : Type} (p : α → Bool) (f : α → β) (q : β → Bool)
    (l : List α) :
    (((l.filter p).map f).filter q).length = l.countP (fun a => p a && q (f a)) := by
  induction l with
  | nil => rfl
  | cons a as ih =>
    by_cases hp : p a
    · by_cases hq : q (f a) <;>
        simp [List.filter_cons, List.countP_cons, hp, hq, ih]
    · simp [List.filter_cons, List.countP_cons, hp, ih]

theorem countP_and_le {α : Type} (p q : α → Bool) (l : List α) :
    l.countP (fun a => p a && q a) ≤ l.countP p := by
  induction l with
  | nil => exact Nat.le_refl 0
  | cons a as ih =>
    simp only [List.countP_cons]
    by_cases hp : p a <;> by_cases hq : q a <;> simp [hp, hq] <;> omega

theorem countP_signal_partition (l : List SignalRecord) :
    l.countP (fun s => decide (s.signal = Signal.buy)) +
    l.countP (fun s => decide (s.signal = Signal.sell)) +
    l.countP (fun s => decide (s.signal = Signal.hold)) +
    l.countP (fun s => decide (s.signal = Signal.weak_buy)) = l.length := by
  induction l with
  | nil => rfl
  | cons s t ih =>
    simp only [List.countP_cons, List.length_cons]
    cases hs : s.signal <;> simp [hs] <;> omega

/-! ### Index bookkeeping for lookback windows -/

theorem getD_mem (l : List ℚ) (k : ℕ) (hk : k < l.length) : l.getD k 0 ∈ l := by
  rw [List.getD_eq_getElem?_getD, List.getElem?_eq_getElem hk]
  exact List.getElem_mem hk

theorem mem_getD (l : List ℚ) (m : ℚ) (hm : m ∈ l) :
    ∃ k, k < l.length ∧ l.getD k 0 = m := by
  obtain ⟨k, hk, he⟩ := List.mem_iff_getElem.mp hm
  refine ⟨k, hk, ?_⟩
  rw [List.getD_eq_getElem?_getD, List.getElem?_eq_getElem hk]
  exact he

theorem window_length (prices : List ℚ) (i L : ℕ) (hi : i ≤ prices.length) :
    ((prices.take i).drop (i - L)).length = i - (i - L) := by
  rw [List.length_drop, List.length_take]
  omega

theorem getD_window (prices : List ℚ) (i L k : ℕ) (hi : i ≤ prices.length)
    (hk : k < i - (i - L)) :
    ((prices.take i).drop (i - L)).getD k 0 = prices.getD (i - L + k) 0 := by
  have h1 : i - L + k < prices.length := by omega
  have h2 : k < ((prices.take i).drop (i - L)).length := by
    rw [window_length prices i L hi]; omega
  rw [List.getD_eq_getElem?_getD, List.getElem?_eq_getElem h2,
    List.getD_eq_getElem?_getD, List.getElem?_eq_getElem h1]
  simp only [List.getElem_drop, List.getElem_take]

/-! ### Claim C8 -/

/-- C8: for a target index `i` in range and any lookback `L`,
`find_support_level` returns the minimum close price among indices in
`[max 0 (i - L), i)` (the target index itself excluded): it is a lower bound
of the window and is attained at some window index.  When the window is empty
(in particular when `i = 0`) it returns the close price at `i` itself. -/
theorem find_support_level_spec (prices : List ℚ) (i L : ℕ) (hi : i < prices.length) :
    (i - L < i →
      (∀ j, i - L ≤ j → j < i → find_support_level prices i L ≤ prices.getD j 0) ∧
      (∃ j, i - L ≤ j ∧ j < i ∧ find_support_level prices i L = prices.getD j 0)) ∧
    (¬i - L < i → find_support_level prices i L = prices.getD i 0) := by
  have hile : i ≤ prices.length := le_of_lt hi
  have hlen := window_length prices i L hile
  constructor
  · intro hne
    cases hm : ((prices.take i).drop (i - L)).min? with
    | none =>
      exfalso
      have hnil := List.min?_eq_none_iff.mp hm
      rw [hnil] at hlen
      simp at hlen
      omega
    | some m =>
      have hfsl : find_support_level prices i L = m := by
        unfold find_support_level
        rw [hm]
      obtain ⟨hmem, hlb⟩ := min?_spec _ _ hm
      constructor
      · intro j hj1 hj2
        have hk : j - (i - L) < i - (i - L) := by omega
        have he := getD_window prices i L (j - (i - L)) hile hk
        have hjeq : i - L + (j - (i - L)) = j := by omega
        rw [hjeq] at he
        have hmem2 : prices.getD j 0 ∈ (prices.take i).drop (i - L) := by
          rw [← he]
          exact getD_mem _ _ (by rw [hlen]; omega)
        rw [hfsl]
        exact hlb _ hmem2
      · obtain ⟨k, hk, he⟩ := mem_getD _ m hmem
        rw [hlen] at hk
        refine ⟨i - L + k, by omega, by omega, ?_⟩
        rw [hfsl, ← getD_window prices i L k hile hk]
        exact he.symm
  · intro hemp
    have hnil : (prices.take i).drop (i - L) = [] := by
      have h0 : ((prices.take i).drop (i - L)).length = 0 := by omega
      exact List.eq_nil_of_length_eq_zero h0
    unfold find_support_level
    rw [hnil]
    simp

/-- Witness for C8: on the series `[3, 1, 2]` with target index 2 the support
level is 1, and the theorem bounds it by the close at window index 0. -/
theorem find_support_level_spec_witness :
    find_support_level [3, 1, 2] 2 20 = 1 ∧
    find_support_level [3, 1, 2] 2 20 ≤ ([3, 1, 2] : List ℚ).getD 0 0 := by
  refine ⟨by with_unfolding_all decide, ?_⟩
  exact (((find_support_level_spec [3, 1, 2] 2 20 (by with_unfolding_all decide)).1 (by with_unfolding_all decide)).1)
    0 (by with_unfolding_all decide) (by with_unfolding_all decide)

/-! ### Claim C4 -/

/-- C4: every series of fewer than 6 points yields one record per day, all
`hold` with confidence 0 and null drop/profit, without raising; and the
specific 6-point series `[100, 97, 99, 101, 103, 110]` (daily drop of exactly
-3% at index 1, excluded by the strict `i < n - 5` guard) also yields all
`hold` records. -/
theorem short_series_all_hold :
    (∀ prices : List ℚ, prices.length < 6 →
      ∃ sigs, generate_signals prices = some sigs ∧ sigs.length = prices.length ∧
        ∀ r ∈ sigs, r.signal = Signal.hold ∧ r.confidence = 0 ∧
          r.price_drop = none ∧ r.expected_profit = none) ∧
    generate_signals [100, 97, 99, 101, 103, 110] =
      some [⟨0, Signal.hold, none, none, 0, 100⟩, ⟨1, Signal.hold, none, none, 0, 97⟩,
        ⟨2, Signal.hold, none, none, 0, 99⟩, ⟨3, Signal.hold, none, none, 0, 101⟩,
        ⟨4, Signal.hold, none, none, 0, 103⟩, ⟨5, Signal.hold, none, none, 0, 110⟩] := by
  constructor
  · intro prices hn
    have hmap : ∀ j ∈ List.range prices.length,
        genSignalAt prices j = some (holdRecord prices j) := by
      intro j hj
      have hjlt := List.mem_range.mp hj
      have hbuy : buyEval prices j = some (holdRecord prices j) := by
        unfold buyEval
        rw [if_neg (by omega : ¬(1 ≤ j ∧ j + 5 < prices.length))]
        rfl
      have hsell : sellEval prices j (holdRecord prices j) =
          some (holdRecord prices j) := by
        unfold sellEval
        rw [if_neg (by omega : ¬(5 ≤ j ∧ 1 ≤ j - 5))]
      unfold genSignalAt
      rw [hbuy]
      exact hsell
    refine ⟨(List.range prices.length).map (holdRecord prices),
      optionTraverse_eq_map _ _ _ hmap, by simp, ?_⟩
    intro r hr
    simp only [List.mem_map, List.mem_range] at hr
    obtain ⟨j, hj, rfl⟩ := hr
    exact ⟨rfl, rfl, rfl, rfl⟩
  · with_unfolding_all decide

/-- Witness for C4: the three-point series `[1, 2, 3]` yields three default
`hold` records. -/
theorem short_series_all_hold_witness :
    ∃ sigs, generate_signals [1, 2, 3] = some sigs ∧
      sigs.length = ([1, 2, 3] : List ℚ).length ∧
      ∀ r ∈ sigs, r.signal = Signal.hold ∧ r.confidence = 0 ∧
        r.price_drop = none ∧ r.expected_profit = none :=
  short_series_all_hold.1 [1, 2, 3] (by with_unfolding_all decide)

/-! ### Claim C1 -/

/-- C1 (counterexample): on the non-negative ordered series
`[0, 1, 1, 1, 1, 1, 1, 1]`, index 1 satisfies the BUY guard and its
daily-change computation divides by `prev_close = close[0] = 0`: the Python
code raises `ZeroDivisionError` (modelled by `none`) instead of yielding a
null feature or a false flag. -/
theorem generate_signals_zero_raises :
    generate_signals [0, 1, 1, 1, 1, 1, 1, 1] = none := by with_unfolding_all decide

/-- C1 (amended): a zero denominator encountered by an evaluated index makes
`generate_signals` propagate the division error (`none`); on every series of
strictly positive prices it never raises and produces one record per day. -/
theorem generate_signals_total_of_pos (prices : List ℚ)
    (hpos : ∀ p ∈ prices, 0 < p) :
    ∃ sigs, generate_signals prices = some sigs ∧ sigs.length = prices.length := by
  have hall : ∀ j ∈ List.range prices.length, ∃ r, genSignalAt prices j = some r := by
    intro j hj
    have hjlt := List.mem_range.mp hj
    have hbuy : ∃ b, buyEval prices j = some b := by
      unfold buyEval
      by_cases hg : 1 ≤ j ∧ j + 5 < prices.length
      · rw [if_pos hg, if_neg (ne_of_gt (getD_pos prices hpos (j - 1) (by omega)))]
        by_cases hd : dailyChange prices j ≤ -3
        · rw [if_pos hd,
            if_neg (ne_of_gt (find_support_level_pos prices hpos j 20 (by omega))),
            if_neg (ne_of_gt (getD_pos prices hpos j (by omega)))]
          by_cases hp : 0 < profit5 prices j
          · rw [if_pos hp]; exact ⟨_, rfl⟩
          · rw [if_neg hp]; exact ⟨_, rfl⟩
        · rw [if_neg hd]; exact ⟨_, rfl⟩
      · rw [if_neg hg]; exact ⟨_, rfl⟩
    obtain ⟨b, hb⟩ := hbuy
    have hsell : ∃ r, sellEval prices j b = some r := by
      unfold sellEval
      by_cases hg : 5 ≤ j ∧ 1 ≤ j - 5
      · rw [if_pos hg, if_neg (ne_of_gt (getD_pos prices hpos (j - 6) (by omega)))]
        by_cases hd : dailyChange prices (j - 5) ≤ -3
        · rw [if_pos hd, if_neg (ne_of_gt (getD_pos prices hpos (j - 5) (by omega)))]
          exact ⟨_, rfl⟩
        · rw [if_neg hd]; exact ⟨_, rfl⟩
      · rw [if_neg hg]; exact ⟨_, rfl⟩
    obtain ⟨r, hr⟩ := hsell
    refine ⟨r, ?_⟩
    unfold genSignalAt
    rw [hb]
    exact hr
  obtain ⟨sigs, hs⟩ := optionTraverse_isSome _ _ hall
  refine ⟨sigs, hs, ?_⟩
  rw [optionTraverse_length _ _ _ hs, List.length_range]

/-- Witness for C1 (amended): the strictly positive series
`[1, 2, 3, 4, 5, 6, 7]` is processed without raising. -/
theorem generate_signals_total_of_pos_witness :
    ∃ sigs, generate_signals [1, 2, 3, 4, 5, 6, 7] = some sigs ∧
      sigs.length = ([1, 2, 3, 4, 5, 6, 7] : List ℚ).length :=
  generate_signals_total_of_pos [1, 2, 3, 4, 5, 6, 7] (by with_unfolding_all decide)

/-! ### Claim C2 -/

/-- C2: at an index satisfying the BUY guard `1 ≤ i < n - 5` whose daily
change is ≤ -3%, and absent a same-index SELL override: a positive 5-day
forward profit yields signal `buy` with `price_drop = |daily_change|` and
`expected_profit` equal to that profit; otherwise the record gets `weak_buy`
when the computed confidence is at least 60, and `hold` when it is below
60. -/
theorem buy_branch_spec (prices : List ℚ) (i : ℕ) (r : SignalRecord)
    (hr : genSignalAt prices i = some r)
    (h1 : 1 ≤ i) (h2 : i + 5 < prices.length)
    (hd : dailyChange prices i ≤ -3)
    (hns : ¬sellTrigger prices i) :
    (0 < profit5 prices i →
      r.signal = Signal.buy ∧ r.price_drop = some |dailyChange prices i| ∧
      r.expected_profit = some (profit5 prices i)) ∧
    (¬0 < profit5 prices i →
      (60 ≤ buyConfidence prices i → r.signal = Signal.weak_buy) ∧
      (buyConfidence prices i < 60 → r.signal = Signal.hold)) := by
  obtain ⟨b, hb, hs⟩ := genSignalAt_inv prices i r hr
  rcases sellEval_spec prices i b r hs with ⟨ht, _⟩ | ⟨_, rfl⟩
  · exact absurd ht hns
  rcases buyEval_spec prices i r hb with
    ⟨hg, _⟩ | ⟨_, hnd, _⟩ | ⟨_, _, hp, rfl⟩ | ⟨_, _, hnp, rfl⟩
  · exact absurd ⟨h1, h2⟩ hg
  · exact absurd hd hnd
  · exact ⟨fun _ => ⟨rfl, rfl, rfl⟩, fun hc => absurd hp hc⟩
  · refine ⟨fun hp => absurd hp hnp, fun _ => ⟨?_, ?_⟩⟩
    · intro hge
      show (if buyConfidence prices i < 60 then Signal.hold else Signal.weak_buy) =
        Signal.weak_buy
      rw [if_neg (by omega : ¬buyConfidence prices i < 60)]
    · intro hlt
      show (if buyConfidence prices i < 60 then Signal.hold else Signal.weak_buy) =
        Signal.hold
      rw [if_pos hlt]

/-- Witness for C2: on `[100, 96, 96, 96, 96, 96, 200]`, index 1 drops 4% and
the 5-day profit is positive, so the record is a `buy`. -/
theorem buy_branch_spec_witness :
    genSignalAt [100, 96, 96, 96, 96, 96, 200] 1 =
      some ⟨1, Signal.buy, some 4, some (325 / 3), 65, 96⟩ ∧
    (⟨1, Signal.buy, some 4, some (325 / 3), 65, 96⟩ : SignalRecord).signal =
      Signal.buy := by
  refine ⟨by with_unfolding_all decide, ?_⟩
  exact ((buy_branch_spec [100, 96, 96, 96, 96, 96, 200] 1
    ⟨1, Signal.buy, some 4, some (325 / 3), 65, 96⟩ (by with_unfolding_all decide) (by with_unfolding_all decide) (by with_unfolding_all decide)
    (by with_unfolding_all decide) (by with_unfolding_all decide)).1 (by with_unfolding_all decide)).1

/-! ### Claim C3 -/

/-- C3: at an index `i ≥ 5` with `past_i = i - 5 ≥ 1` whose day-over-day drop
at `past_i` is ≤ -3%, the final record carries signal `sell` and
`expected_profit = (close[i] - close[past_i]) / close[past_i] * 100`,
overwriting the same-index BUY evaluation's signal and expected profit while
leaving its `price_drop` and `confidence` untouched. -/
theorem sell_override_spec (prices : List ℚ) (i : ℕ) (b r : SignalRecord)
    (hb : buyEval prices i = some b) (hr : genSignalAt prices i = some r)
    (h5 : 5 ≤ i) (h51 : 1 ≤ i - 5)
    (hd : dailyChange prices (i - 5) ≤ -3) :
    r.signal = Signal.sell ∧
    r.expected_profit = some ((prices.getD i 0 - prices.getD (i - 5) 0) /
      prices.getD (i - 5) 0 * 100) ∧
    r.price_drop = b.price_drop ∧ r.confidence = b.confidence := by
  obtain ⟨b2, hb2, hs⟩ := genSignalAt_inv prices i r hr
  rw [hb] at hb2
  injection hb2 with hb2
  subst hb2
  rcases sellEval_spec prices i b r hs with ⟨_, rfl⟩ | ⟨hnt, _⟩
  · exact ⟨rfl, rfl, rfl, rfl⟩
  · exact absurd ⟨⟨h5, h51⟩, hd⟩ hnt

/-- Witness for C3: on `[100, 96, 96, 96, 96, 96, 96]`, the drop at index 1
turns index 6 into a `sell` with realized profit 0. -/
theorem sell_override_spec_witness :
    genSignalAt [100, 96, 96, 96, 96, 96, 96] 6 =
      some ⟨6, Signal.sell, none, some 0, 0, 96⟩ ∧
    (⟨6, Signal.sell, none, some 0, 0, 96⟩ : SignalRecord).signal = Signal.sell := by
  refine ⟨by with_unfolding_all decide, ?_⟩
  exact (sell_override_spec [100, 96, 96, 96, 96, 96, 96] 6
    ⟨6, Signal.hold, none, none, 0, 96⟩ ⟨6, Signal.sell, none, some 0, 0, 96⟩
    (by with_unfolding_all decide) (by with_unfolding_all decide) (by with_unfolding_all decide) (by with_unfolding_all decide) (by with_unfolding_all decide)).1

/-! ### Claim C5 -/

/-- C5: whenever the BUY guard holds and the daily change qualifies (≤ -3%),
the confidence of the resulting record is one of 65, 80, 85, 100 — base 50
plus the always-true volume bonus 15, optionally plus 20 (above the moving
average) and 15 (near support) — and in particular never below 65. -/
theorem qualifying_drop_confidence (prices : List ℚ) (i : ℕ) (r : SignalRecord)
    (hr : genSignalAt prices i = some r)
    (h1 : 1 ≤ i) (h2 : i + 5 < prices.length)
    (hd : dailyChange prices i ≤ -3) :
    (r.confidence = 65 ∨ r.confidence = 80 ∨ r.confidence = 85 ∨
      r.confidence = 100) ∧ 65 ≤ r.confidence := by
  obtain ⟨b, hb, hs⟩ := genSignalAt_inv prices i r hr
  have hconf : r.confidence = b.confidence :=
    (genSignalAt_confidence prices i b r hb hs).1
  have hbc : b.confidence = buyConfidence prices i := by
    rcases buyEval_spec prices i b hb with
      ⟨hg, _⟩ | ⟨_, hnd, _⟩ | ⟨_, _, _, rfl⟩ | ⟨_, _, _, rfl⟩
    · exact absurd ⟨h1, h2⟩ hg
    · exact absurd hd hnd
    · rfl
    · rfl
  rw [hconf, hbc]
  exact ⟨buyConfidence_cases prices i, buyConfidence_ge prices i⟩

/-- Witness for C5: on `[50, 48, 48, 48, 48, 48, 60]`, index 1 qualifies and
its confidence is 65. -/
theorem qualifying_drop_confidence_witness :
    genSignalAt [50, 48, 48, 48, 48, 48, 60] 1 =
      some ⟨1, Signal.buy, some 4, some 25, 65, 48⟩ ∧
    65 ≤ (⟨1, Signal.buy, some 4, some 25, 65, 48⟩ : SignalRecord).confidence := by
  refine ⟨by with_unfolding_all decide, ?_⟩
  exact (qualifying_drop_confidence [50, 48, 48, 48, 48, 48, 60] 1
    ⟨1, Signal.buy, some 4, some 25, 65, 48⟩ (by with_unfolding_all decide) (by with_unfolding_all decide) (by with_unfolding_all decide)
    (by with_unfolding_all decide)).2

/-! ### Claim C10 -/

/-- C10: the low-confidence `hold` branch of the BUY evaluation is
unreachable — after a qualifying drop the confidence is at least 65, so a
qualifying drop with non-positive 5-day profit always yields `weak_buy`
(absent a same-index SELL override); consequently every record with signal
`hold` in the engine's output keeps the loop defaults: confidence 0,
`price_drop` null and `expected_profit` null. -/
theorem hold_records_default :
    (∀ (prices : List ℚ) (i : ℕ) (r : SignalRecord),
      genSignalAt prices i = some r → 1 ≤ i → i + 5 < prices.length →
      dailyChange prices i ≤ -3 → ¬0 < profit5 prices i →
      ¬sellTrigger prices i → r.signal = Signal.weak_buy) ∧
    (∀ (prices : List ℚ) (sigs : List SignalRecord),
      generate_signals prices = some sigs →
      ∀ r ∈ sigs, r.signal = Signal.hold →
        r.confidence = 0 ∧ r.price_drop = none ∧ r.expected_profit = none) := by
  constructor
  · intro prices i r hr h1 h2 hd hnp hns
    obtain ⟨b, hb, hs⟩ := genSignalAt_inv prices i r hr
    rcases sellEval_spec prices i b r hs with ⟨ht, _⟩ | ⟨_, rfl⟩
    · exact absurd ht hns
    rcases buyEval_spec prices i r hb with
      ⟨hg, _⟩ | ⟨_, hnd, _⟩ | ⟨_, _, hp, _⟩ | ⟨_, _, _, rfl⟩
    · exact absurd ⟨h1, h2⟩ hg
    · exact absurd hd hnd
    · exact absurd hp hnp
    · show (if buyConfidence prices i < 60 then Signal.hold else Signal.weak_buy) =
        Signal.weak_buy
      rw [if_neg (by have h65 := buyConfidence_ge prices i; omega :
        ¬buyConfidence prices i < 60)]
  · intro prices sigs h r hrm hhold
    obtain ⟨i, hi, hr⟩ := generate_signals_mem prices sigs h r hrm
    obtain ⟨b, hb, hs⟩ := genSignalAt_inv prices i r hr
    rcases sellEval_spec prices i b r hs with ⟨_, rfl⟩ | ⟨_, rfl⟩
    · exact Signal.noConfusion hhold
    rcases buyEval_spec prices i r hb with
      ⟨_, rfl⟩ | ⟨_, _, rfl⟩ | ⟨_, _, _, rfl⟩ | ⟨_, _, _, rfl⟩
    · exact ⟨rfl, rfl, rfl⟩
    · exact ⟨rfl, rfl, rfl⟩
    · exact Signal.noConfusion hhold
    · exfalso
      have hc : ¬buyConfidence prices i < 60 := by
        have h65 := buyConfidence_ge prices i
        omega
      rw [if_neg hc] at hhold
      exact Signal.noConfusion hhold

/-- Witness for C10: on the flat series `[2, 2, 2, 2, 2, 2]` every record is
a default `hold`, and the record at index 0 keeps the loop defaults. -/
theorem hold_records_default_witness :
    (⟨0, Signal.hold, none, none, 0, 2⟩ : SignalRecord).confidence = 0 ∧
    (⟨0, Signal.hold, none, none, 0, 2⟩ : SignalRecord).price_drop = none ∧
    (⟨0, Signal.hold, none, none, 0, 2⟩ : SignalRecord).expected_profit = none :=
  hold_records_default.2 [2, 2, 2, 2, 2, 2]
    [⟨0, Signal.hold, none, none, 0, 2⟩, ⟨1, Signal.hold, none, none, 0, 2⟩,
     ⟨2, Signal.hold, none, none, 0, 2⟩, ⟨3, Signal.hold, none, none, 0, 2⟩,
     ⟨4, Signal.hold, none, none, 0, 2⟩, ⟨5, Signal.hold, none, none, 0, 2⟩]
    (by with_unfolding_all decide) ⟨0, Signal.hold, none, none, 0, 2⟩
    (by with_unfolding_all decide) (by with_unfolding_all decide)

/-! ### Summary-aggregator helpers -/

theorem get_summary_stats_inv (signals : List SignalRecord) (st : SummaryStats)
    (h : get_summary_stats signals = some st) :
    ∃ profits,
      optionTraverse (fun s => s.expected_profit) (buysOf signals) = some profits ∧
      st = mkSummary signals profits := by
  unfold get_summary_stats at h
  cases ht : optionTraverse (fun s => s.expected_profit) (buysOf signals) with
  | none => rw [ht] at h; exact Option.noConfusion h
  | some profits =>
    rw [ht] at h
    exact ⟨profits, rfl, (Option.some.inj h).symm⟩

theorem buysOf_length (signals : List SignalRecord) :
    (buysOf signals).length =
      signals.countP (fun s => decide (s.signal = Signal.buy)) :=
  (List.countP_eq_length_filter _ _).symm

theorem sellsOf_length (signals : List SignalRecord) :
    (sellsOf signals).length =
      signals.countP (fun s => decide (s.signal = Signal.sell)) :=
  (List.countP_eq_length_filter _ _).symm

theorem holdsOf_length (signals : List SignalRecord) :
    (holdsOf signals).length =
      signals.countP (fun s => decide (s.signal = Signal.hold)) :=
  (List.countP_eq_length_filter _ _).symm

theorem pyRound2_hundred : pyRound2 100 = 100 := by with_unfolding_all decide

theorem pyRound2_zero : pyRound2 0 = 0 := by with_unfolding_all decide

theorem mkSummary_success_rate (signals : List SignalRecord) (profits : List ℚ) :
    (mkSummary signals profits).success_rate = pyRound2 (successRateOf
      ((profits.filter (fun p => decide (0 < p))).length)
      ((buysOf signals).length)) := rfl

/-! ### Claim C7 -/

/-- C7: `get_summary_stats` counts exactly the `buy`, `sell` and `hold`
records in the three count fields; `weak_buy` records fall in none of the
three buckets, so the three counts together with the `weak_buy` count
partition `total_days`, and the three counts alone can be strictly fewer than
`total_days`. -/
theorem summary_counts_spec :
    (∀ (signals : List SignalRecord) (st : SummaryStats),
      get_summary_stats signals = some st →
      st.buy_signals = signals.countP (fun s => decide (s.signal = Signal.buy)) ∧
      st.sell_signals = signals.countP (fun s => decide (s.signal = Signal.sell)) ∧
      st.hold_signals = signals.countP (fun s => decide (s.signal = Signal.hold)) ∧
      st.buy_signals + st.sell_signals + st.hold_signals +
        signals.countP (fun s => decide (s.signal = Signal.weak_buy)) =
        st.total_days) ∧
    (get_summary_stats [⟨0, Signal.weak_buy, none, none, 0, 1⟩]).map
      (fun st => decide (st.buy_signals + st.sell_signals + st.hold_signals <
        st.total_days)) = some true := by
  constructor
  · intro signals st h
    obtain ⟨profits, ht, rfl⟩ := get_summary_stats_inv signals st h
    refine ⟨buysOf_length signals, sellsOf_length signals, holdsOf_length signals, ?_⟩
    show (buysOf signals).length + (sellsOf signals).length +
      (holdsOf signals).length + _ = signals.length
    rw [buysOf_length, sellsOf_length, holdsOf_length]
    exact countP_signal_partition signals
  · with_unfolding_all decide

/-- Witness for C7: a single-`hold` list has `buy_signals = 0` as counted by
the `buy` predicate. -/
theorem summary_counts_spec_witness :
    get_summary_stats [⟨0, Signal.hold, none, none, 0, 1⟩] =
      some ⟨1, 0, 0, 1, 0, some 0, some 0, 0, 0⟩ ∧
    (⟨1, 0, 0, 1, 0, some 0, some 0, 0, 0⟩ : SummaryStats).buy_signals =
      ([⟨0, Signal.hold, none, none, 0, 1⟩] : List SignalRecord).countP
        (fun s => decide (s.signal = Signal.buy)) := by
  refine ⟨by with_unfolding_all decide, ?_⟩
  exact (summary_counts_spec.1 [⟨0, Signal.hold, none, none, 0, 1⟩]
    ⟨1, 0, 0, 1, 0, some 0, some 0, 0, 0⟩ (by with_unfolding_all decide)).1

/-! ### Claim C6 -/

/-- C6 (counterexample): on a list of three buy records with expected profits
1, -1, -1, one of three buys is successful and the claim predicts
success_rate `(1/3)·100`, but the function returns the two-decimal rounding
`33.33 = 3333/100`, which differs. -/
theorem success_rate_rounding_counterexample :
    (get_summary_stats
      [⟨0, Signal.buy, some 4, some 1, 65, 1⟩,
       ⟨1, Signal.buy, some 4, some (-1), 65, 1⟩,
       ⟨2, Signal.buy, some 4, some (-1), 65, 1⟩]).map SummaryStats.success_rate =
      some (3333 / 100) ∧
    (3333 / 100 : ℚ) ≠ (1 : ℚ) / 3 * 100 := by
  constructor
  · have htr : optionTraverse (fun s => s.expected_profit)
        (buysOf [⟨0, Signal.buy, some 4, some 1, 65, 1⟩,
          ⟨1, Signal.buy, some 4, some (-1), 65, 1⟩,
          ⟨2, Signal.buy, some 4, some (-1), 65, 1⟩]) = some [1, -1, -1] := by
      with_unfolding_all decide
    have hsum : get_summary_stats
        [⟨0, Signal.buy, some 4, some 1, 65, 1⟩,
         ⟨1, Signal.buy, some 4, some (-1), 65, 1⟩,
         ⟨2, Signal.buy, some 4, some (-1), 65, 1⟩] =
        some (mkSummary
          [⟨0, Signal.buy, some 4, some 1, 65, 1⟩,
           ⟨1, Signal.buy, some 4, some (-1), 65, 1⟩,
           ⟨2, Signal.buy, some 4, some (-1), 65, 1⟩] [1, -1, -1]) := by
      unfold get_summary_stats
      rw [htr]
      rfl
    rw [hsum]
    show some ((mkSummary
      [⟨0, Signal.buy, some 4, some 1, 65, 1⟩,
       ⟨1, Signal.buy, some 4, some (-1), 65, 1⟩,
       ⟨2, Signal.buy, some 4, some (-1), 65, 1⟩] [1, -1, -1]).success_rate) =
      some (3333 / 100)
    rw [mkSummary_success_rate,
      (by with_unfolding_all decide :
        (([1, -1, -1] : List ℚ).filter (fun p => decide (0 < p))).length = 1),
      (by with_unfolding_all decide :
        (buysOf [⟨0, Signal.buy, some 4, some 1, 65, 1⟩,
          ⟨1, Signal.buy, some 4, some (-1), 65, 1⟩,
          ⟨2, Signal.buy, some 4, some (-1), 65, 1⟩]).length = 3)]
    norm_num [pyRound2, successRateOf, roundHalfEven]
  · norm_num

/-- C6 (amended): whenever `get_summary_stats` returns, the returned
`success_rate` is the two-decimal rounding of (count of buy records with
positive expected profit) / (count of buy records) · 100 — 0 when there are
no buy records — and always lies in [0, 100]. -/
theorem success_rate_spec (signals : List SignalRecord) (st : SummaryStats)
    (h : get_summary_stats signals = some st) :
    st.success_rate = pyRound2 (successRateOf
      (signals.countP (fun s => decide (s.signal = Signal.buy) &&
        decide (0 < s.expected_profit.getD 0)))
      (signals.countP (fun s => decide (s.signal = Signal.buy)))) ∧
    0 ≤ st.success_rate ∧ st.success_rate ≤ 100 := by
  obtain ⟨profits, ht, rfl⟩ := get_summary_stats_inv signals st h
  have hmap : profits = (buysOf signals).map (fun s => s.expected_profit.getD 0) :=
    optionTraverse_eq_map_getD _ 0 _ _ ht
  have hcount : (profits.filter (fun p => decide (0 < p))).length =
      signals.countP (fun s => decide (s.signal = Signal.buy) &&
        decide (0 < s.expected_profit.getD 0)) := by
    rw [hmap]
    unfold buysOf
    exact length_filter_map _ _ _ signals
  have hsucc : (mkSummary signals profits).success_rate =
      pyRound2 (successRateOf ((profits.filter (fun p => decide (0 < p))).length)
        ((buysOf signals).length)) := rfl
  rw [hsucc, hcount, buysOf_length signals]
  have hle : signals.countP (fun s => decide (s.signal = Signal.buy) &&
      decide (0 < s.expected_profit.getD 0)) ≤
      signals.countP (fun s => decide (s.signal = Signal.buy)) :=
    countP_and_le _ _ signals
  obtain ⟨hb0, hb1⟩ := successRateOf_bounds _ _ hle
  exact ⟨rfl, pyRound2_bounds _ hb0 hb1⟩

/-- Witness for C6 (amended): a single successful buy record yields
success_rate 100, which is within bounds. -/
theorem success_rate_spec_witness :
    get_summary_stats [⟨0, Signal.buy, some 4, some 2, 65, 1⟩] =
      some ⟨1, 1, 0, 0, 100, some 4, some 2, 4, 4⟩ ∧
    0 ≤ (⟨1, 1, 0, 0, 100, some 4, some 2, 4, 4⟩ : SummaryStats).success_rate := by
  refine ⟨by with_unfolding_all decide, ?_⟩
  exact (success_rate_spec [⟨0, Signal.buy, some 4, some 2, 65, 1⟩]
    ⟨1, 1, 0, 0, 100, some 4, some 2, 4, 4⟩ (by with_unfolding_all decide)).2.1

/-! ### Claim C9 -/

/-- C9: every record the engine outputs with signal `buy` carries a positive
expected profit and a price drop of at least 3, because `buy` is only
assigned when the 5-day profit is positive and a SELL override changes the
signal away from `buy`; consequently `get_summary_stats` on engine output
returns success_rate exactly 100 when there is at least one buy record and 0
when there is none. -/
theorem buy_records_all_successful (prices : List ℚ) (sigs : List SignalRecord)
    (h : generate_signals prices = some sigs) :
    (∀ r ∈ sigs, r.signal = Signal.buy →
      (∃ p, r.expected_profit = some p ∧ 0 < p) ∧
      (∃ d, r.price_drop = some d ∧ 3 ≤ d)) ∧
    ∃ st, get_summary_stats sigs = some st ∧
      (0 < st.buy_signals → st.success_rate = 100) ∧
      (st.buy_signals = 0 → st.success_rate = 0) := by
  have hbuy : ∀ r ∈ sigs, r.signal = Signal.buy →
      (∃ p, r.expected_profit = some p ∧ 0 < p) ∧
      (∃ d, r.price_drop = some d ∧ 3 ≤ d) := by
    intro r hrm hsig
    obtain ⟨i, hi, hr⟩ := generate_signals_mem prices sigs h r hrm
    obtain ⟨b, hb, hs⟩ := genSignalAt_inv prices i r hr
    rcases sellEval_spec prices i b r hs with ⟨_, rfl⟩ | ⟨_, rfl⟩
    · exact Signal.noConfusion hsig
    rcases buyEval_spec prices i r hb with
      ⟨_, rfl⟩ | ⟨_, _, rfl⟩ | ⟨_, hd, hp, rfl⟩ | ⟨_, _, _, rfl⟩
    · exact Signal.noConfusion hsig
    · exact Signal.noConfusion hsig
    · refine ⟨⟨profit5 prices i, rfl, hp⟩, |dailyChange prices i|, rfl, ?_⟩
      have habs := neg_le_abs (dailyChange prices i)
      linarith
    · by_cases hc : buyConfidence prices i < 60
      · rw [if_pos hc] at hsig
        exact Signal.noConfusion hsig
      · rw [if_neg hc] at hsig
        exact Signal.noConfusion hsig
  refine ⟨hbuy, ?_⟩
  have hall : ∀ s ∈ buysOf sigs, ∃ p, s.expected_profit = some p := by
    intro s hsm
    have hmem := List.mem_filter.mp hsm
    have hsig : s.signal = Signal.buy := by simpa using hmem.2
    obtain ⟨⟨p, hp, _⟩, _⟩ := hbuy s hmem.1 hsig
    exact ⟨p, hp⟩
  obtain ⟨profits, hprof⟩ := optionTraverse_isSome _ _ hall
  have hppos : ∀ p ∈ profits, 0 < p := by
    intro p hpm
    obtain ⟨s, hsm, hsp⟩ := optionTraverse_mem _ _ _ hprof p hpm
    have hmem := List.mem_filter.mp hsm
    have hsig : s.signal = Signal.buy := by simpa using hmem.2
    obtain ⟨⟨p2, hp2, hp2pos⟩, _⟩ := hbuy s hmem.1 hsig
    rw [hsp] at hp2
    injection hp2 with hp2
    rw [hp2]
    exact hp2pos
  have hfilter : profits.filter (fun p => decide (0 < p)) = profits :=
    List.filter_eq_self.mpr (fun p hp => by simpa using hppos p hp)
  have hlen : profits.length = (buysOf sigs).length :=
    optionTraverse_length _ _ _ hprof
  have hsum : get_summary_stats sigs = some (mkSummary sigs profits) := by
    unfold get_summary_stats
    rw [hprof]
    rfl
  have hrate : (mkSummary sigs profits).success_rate =
      pyRound2 (successRateOf ((profits.filter (fun p => decide (0 < p))).length)
        ((buysOf sigs).length)) := rfl
  refine ⟨mkSummary sigs profits, hsum, ?_, ?_⟩
  · intro hpos
    have hpos2 : 0 < (buysOf sigs).length := hpos
    have hne : ((buysOf sigs).length : ℚ) ≠ 0 := by
      exact_mod_cast Nat.pos_iff_ne_zero.mp hpos2
    show (mkSummary sigs profits).success_rate = 100
    rw [hrate, hfilter, hlen]
    unfold successRateOf
    rw [if_pos hpos2, div_self hne, one_mul]
    exact pyRound2_hundred
  · intro h0
    have h02 : (buysOf sigs).length = 0 := h0
    show (mkSummary sigs profits).success_rate = 0
    rw [hrate, hfilter, hlen, h02]
    unfold successRateOf
    rw [if_neg (by omega : ¬0 < 0)]
    exact pyRound2_zero

/-- Witness for C9: the flat series `[1, 1, 1, 1, 1, 1, 1]` yields no buy
records and success_rate 0. -/
theorem buy_records_all_successful_witness :
    ∃ st, get_summary_stats
      [⟨0, Signal.hold, none, none, 0, 1⟩, ⟨1, Signal.hold, none, none, 0, 1⟩,
       ⟨2, Signal.hold, none, none, 0, 1⟩, ⟨3, Signal.hold, none, none, 0, 1⟩,
       ⟨4, Signal.hold, none, none, 0, 1⟩, ⟨5, Signal.hold, none, none, 0, 1⟩,
       ⟨6, Signal.hold, none, none, 0, 1⟩] = some st ∧
      (0 < st.buy_signals → st.success_rate = 100) ∧
      (st.buy_signals = 0 → st.success_rate = 0) :=
  (buy_records_all_successful [1, 1, 1, 1, 1, 1, 1]
    [⟨0, Signal.hold, none, none, 0, 1⟩, ⟨1, Signal.hold, none, none, 0, 1⟩,
     ⟨2, Signal.hold, none, none, 0, 1⟩, ⟨3, Signal.hold, none, none, 0, 1⟩,
     ⟨4, Signal.hold, none, none, 0, 1⟩, ⟨5, Signal.hold, none, none, 0, 1⟩,
     ⟨6, Signal.hold, none, none, 0, 1⟩] (by with_unfolding_all decide)).2

end StockTracker
